import Mathlib

/-!
# Verification of `ftpspider.py`

A shallow embedding of the FTP spider library: the listing parser
(`parse_dir`), the iterative, stack-based directory walker (`walk`) and the
spidering controller (`FTPSpider.spider`), together with proofs of the
behavioural claims made by the specification.

Conventions of the embedding:
* Python strings are Lean `String`s; all character-level work is done on
  `String.data` (`List Char`) with structural recursion so that every
  definition evaluates inside the kernel.
* `datetime.datetime` values produced by `strptime("%b %d %Y")` are modelled
  by the `Date` structure; the unset time-of-day fields default to `0`
  exactly as in Python.
* The FTP server is modelled as a rose tree (`FTree`) whose nodes carry the
  parsed directory and file entries of one remote directory; the session's
  current-directory cursor is the list of path components below the
  starting path, and every `ftp_obj.cwd` call is recorded as a `CwdEv`
  event.
* Exceptions are modelled with `Except` (parser) and with an explicit
  "raised" flag plus a download oracle (controller).
-/

set_option autoImplicit false

namespace FtpSpider

/-! ## Dates

`datetime.datetime` restricted to what `strptime("%b %d %Y")` can produce:
year/month/day from the parsed tokens, time-of-day fields left at their
default `0`.  Chronological comparison of `datetime` objects is the
lexicographic comparison of the fields, realised here through the strictly
monotone `key` encoding. -/

structure Date where
  year : Nat
  month : Nat
  day : Nat
  hour : Nat
  minute : Nat
  second : Nat
deriving DecidableEq, Repr

/-- Strictly monotone (in chronological order) numeric key of a date:
each factor exceeds the range of the corresponding field. -/
def Date.key (d : Date) : Nat :=
  ((((d.year * 13 + d.month) * 32 + d.day) * 24 + d.hour) * 60 + d.minute) * 60
    + d.second

/-- `a <= b` on `datetime` objects (chronological order). -/
def dateLe (a b : Date) : Bool :=
  Nat.ble a.key b.key

/-! ## Character-level helpers (Python string primitives) -/

/-- One step of `str.split()`: accumulate the current token (reversed in
`acc`), splitting on whitespace runs and dropping empty tokens. -/
def splitWsAux : List Char → List Char → List (List Char)
  | [], acc => if acc.isEmpty then [] else [acc.reverse]
  | c :: rest, acc =>
    if c.isWhitespace then
      if acc.isEmpty then splitWsAux rest []
      else acc.reverse :: splitWsAux rest []
    else splitWsAux rest (c :: acc)

/-- Python `str.split()` (no argument): split on whitespace runs,
no empty tokens. -/
def pySplit (s : String) : List String :=
  (splitWsAux s.data []).map String.mk

/-- Python `str.strip()`: drop leading and trailing whitespace. -/
def pyStrip (s : String) : String :=
  String.mk
    (((s.data.dropWhile Char.isWhitespace).reverse.dropWhile
        Char.isWhitespace).reverse)

/-- `sep.join(parts)` for `sep = " "` (used for the entry name and for the
date string handed to `strptime`). -/
def joinSpace : List String → String
  | [] => ""
  | [s] => s
  | s :: rest => s ++ " " ++ joinSpace rest

/-- Does `cs` start with the pattern `pat`? -/
def listStartsWith : List Char → List Char → Bool
  | [], _ => true
  | _ :: _, [] => false
  | p :: ps, c :: cs => p == c && listStartsWith ps cs

/-- Python substring test `pat in s` on character lists. -/
def hasSubChars (pat : List Char) : List Char → Bool
  | [] => listStartsWith pat []
  | c :: cs => listStartsWith pat (c :: cs) || hasSubChars pat cs

/-- Python `"->" in s` (the symbolic-link indicator test of the spider). -/
def hasArrow (s : String) : Bool :=
  hasSubChars ['-', '>'] s.data

/-- Python `":" in s` (the recent-date test of the parser). -/
def hasColon (s : String) : Bool :=
  s.data.any (fun c => c == ':')

/-- Python `s.split("/")` (keeps empty fields). -/
def splitSlashAux : List Char → List Char → List (List Char)
  | [], acc => [acc.reverse]
  | c :: rest, acc =>
    if c == '/' then acc.reverse :: splitSlashAux rest []
    else splitSlashAux rest (c :: acc)

/-- Python `s.split("/")`. -/
def pySplitSlash (s : String) : List String :=
  (splitSlashAux s.data []).map String.mk

/-! ## `strptime("%b %d %Y")`

Python's `_strptime` turns the format into a regular expression:
`%b` matches a month abbreviation case-insensitively, `%d` matches one or
two digits with value 1..31, `%Y` matches exactly four digits, and a space
in the format matches a whitespace run.  The matched fields must form a
valid calendar date (`ValueError` otherwise), and unset fields (the whole
time of day) default to zero. -/

inductive MLE where
  /-- Python `IndexError` from indexing a too-short token list. -/
  | indexError
  /-- Python `ValueError` from `strptime`. -/
  | valueError
deriving DecidableEq, Repr

/-- The locale month abbreviations recognised by `%b` (lower-cased). -/
def monthAbbrevs : List String :=
  ["jan", "feb", "mar", "apr", "may", "jun", "jul", "aug",
   "sep", "oct", "nov", "dec"]

/-- Case-insensitive `%b` month lookup; `1`-based month number. -/
def parseMonth (s : String) : Option Nat :=
  let l := String.mk (s.data.map Char.toLower)
  (monthAbbrevs.indexOf? l).map (fun i => i + 1)

/-- Numeric value of a digit string. -/
def digitsVal (cs : List Char) : Nat :=
  cs.foldl (fun a c => a * 10 + (c.toNat - 48)) 0

/-- `%d`: one or two digits, value between 1 and 31. -/
def parseDay (s : String) : Option Nat :=
  if s.data.all Char.isDigit ∧ (s.data.length = 1 ∨ s.data.length = 2) then
    let n := digitsVal s.data
    if 1 ≤ n ∧ n ≤ 31 then some n else none
  else none

/-- `%Y`: exactly four digits; `datetime` requires `year ≥ 1`. -/
def parseYear (s : String) : Option Nat :=
  if s.data.all Char.isDigit ∧ s.data.length = 4 ∧ 1 ≤ digitsVal s.data then
    some (digitsVal s.data)
  else none

def isLeap (y : Nat) : Bool :=
  (y % 4 == 0 && y % 100 != 0) || y % 400 == 0

def daysInMonth (y m : Nat) : Nat :=
  if m = 2 then (if isLeap y then 29 else 28)
  else if m = 4 ∨ m = 6 ∨ m = 9 ∨ m = 11 then 30
  else 31

/-- `datetime.datetime.strptime(s, "%b %d %Y")`, truncated (as in the
source) to the date fields; the time of day is the `strptime` default `0`. -/
def strptimeBDY (s : String) : Except MLE Date :=
  match pySplit s with
  | [ms, ds, ys] =>
    match parseMonth ms, parseDay ds, parseYear ys with
    | some m, some d, some y =>
      if d ≤ daysInMonth y m then .ok ⟨y, m, d, 0, 0, 0⟩
      else .error .valueError
    | _, _, _ => .error .valueError
  | _ => .error .valueError

/-! ## The listing parser (`parse_dir`)

`parse_dir` obtains the raw listing lines over the session; the embedding
takes those lines as input together with the current calendar year
(`datetime.datetime.now().strftime("%Y")`). -/

/-- A parsed listing entry: name and modification date. -/
abbrev Entry := String × Date

/-- One classified listing line: a directory entry or a file entry. -/
inductive LEntry where
  | dirE (e : Entry)
  | fileE (e : Entry)
deriving DecidableEq, Repr

/-- Modification date of a classified entry. -/
def LEntry.date : LEntry → Date
  | .dirE e => e.2
  | .fileE e => e.2

/-- `perms[0] == 'd'`. -/
def permsStartsD (perms : String) : Bool :=
  match perms.data with
  | c :: _ => c == 'd'
  | [] => false

/-- The date string handed to `strptime`: tokens 5,6,7 joined with spaces,
where token 7 is replaced by the current year when it contains a colon
(the "date fix" for the recent-entry listing format that omits the year). -/
def dateTokens (cy : Nat) (toks : List String) : String :=
  let t7 := toks.getD 7 ""
  let t7 := if hasColon t7 then Nat.repr cy else t7
  joinSpace [toks.getD 5 "", toks.getD 6 "", t7]

/-- Classification of a parsed line: `'d'` permission strings become
directory entries, all others file entries. -/
def mkEntry (perms name : String) (dt : Date) : LEntry :=
  if permsStartsD perms then .dirE (name, dt) else .fileE (name, dt)

/-- Parse one listing line.

Mirrors the loop body of `parse_dir`: strip the line and skip it when
blank; split on whitespace; a line with fewer than 8 tokens raises
`IndexError` at one of the positional accesses (`split_line[1]` ..
`split_line[7]` — the name slice `split_line[8:]` never raises); the name
is the space-join of the tokens from position 8 on; the three date tokens
(after the colon "date fix") go through `strptime`, whose failure is a
`ValueError`. -/
def parseLine (cy : Nat) (line : String) : Except MLE (Option LEntry) :=
  let l := pyStrip line
  if l.data.isEmpty then .ok none
  else
    let toks := pySplit l
    if toks.length < 8 then .error .indexError
    else
      let perms := toks.getD 0 ""
      let name := joinSpace (toks.drop 8)
      match strptimeBDY (dateTokens cy toks) with
      | .error e => .error e
      | .ok dt => .ok (some (mkEntry perms name dt))

/-- `parse_dir`: fold `parseLine` over the listing lines, appending
directory and file entries in listing order; the first raising line aborts
the whole parse. -/
def parseDir (cy : Nat) (lines : List String) :
    Except MLE (List Entry × List Entry) :=
  match lines with
  | [] => .ok ([], [])
  | l :: rest =>
    match parseLine cy l with
    | .error e => .error e
    | .ok none => parseDir cy rest
    | .ok (some (.dirE e)) =>
      match parseDir cy rest with
      | .error e2 => .error e2
      | .ok (ds, fs) => .ok (e :: ds, fs)
    | .ok (some (.fileE e)) =>
      match parseDir cy rest with
      | .error e2 => .error e2
      | .ok (ds, fs) => .ok (ds, e :: fs)

/-! ## The server tree

`walk` drives the live session; the remote hierarchy it traverses is
modelled as a rose tree whose node carries the parsed subdirectory entries
(in listing order, each with its subtree) and the parsed file entries of
one directory.  `parse_dir` at the session's current directory returns
exactly the entries stored at the current node. -/

/-- A remote directory: subdirectory entries (name, date, subtree) and
file entries, both in listing order. -/
inductive FTree where
  | node (dirs : List (String × Date × FTree)) (files : List Entry) : FTree

abbrev DirEnt := String × Date × FTree

/-- A traversal frame: the remaining (not yet entered) sibling directory
entries at one depth level, in listing order. -/
abbrev Frame := List DirEnt

def FTree.dirs : FTree → List DirEnt
  | .node ds _ => ds

def FTree.files : FTree → List Entry
  | .node _ fs => fs

/-- Name-and-date projection of directory entries: what
`parse_dir` returns to `walk` (`dirs_dates`). -/
def entriesOf (ds : List DirEnt) : List Entry :=
  ds.map (fun d => (d.1, d.2.1))

mutual
/-- Tree size: one unit per node plus one per directory entry (the
termination measure of the walker and of the spec-side traversals). -/
def FTree.size : FTree → Nat
  | .node ds _ => 1 + dirsSize ds

def dirsSize : List DirEnt → Nat
  | [] => 0
  | d :: rest => 1 + d.2.2.size + dirsSize rest
end

theorem size_node (t : FTree) : t.size = 1 + dirsSize t.dirs := by
  cases t <;> rfl

theorem dirsSize_append (a b : List DirEnt) :
    dirsSize (a ++ b) = dirsSize a + dirsSize b := by
  induction a with
  | nil => simp [dirsSize]
  | cons d rest ih => simp [dirsSize, ih]; omega

theorem dirsSize_reverse (a : List DirEnt) :
    dirsSize a.reverse = dirsSize a := by
  induction a with
  | nil => rfl
  | cons d rest ih =>
    simp [dirsSize, List.reverse_cons, dirsSize_append, ih]; omega

/-! ## The iterative walker (`walk`)

The Python generator keeps a list `dir_stack` of frames, pushed with
`dir_stack.append(dirs)` and popped with `dir_stack.pop()`: the end of the
list is the top of the stack, modelled here by the head of a Lean list.
The remaining-siblings list `dirs` is popped from its end
(`dirs.pop()` with no index), kept faithful with `getLast?`/`dropLast`.
Every `ftp_obj.cwd` call is recorded as an event; the session's current
directory is the component list below the starting path. -/

/-- A cursor movement of the session. -/
inductive CwdEv where
  /-- `ftp_obj.cwd(next_dir)`. -/
  | down (name : String)
  /-- `ftp_obj.cwd("..")`. -/
  | up
deriving DecidableEq, Repr

/-- Result of the inner `while next_dir is None` loop. -/
inductive StepRes where
  /-- `done = True`: the walk ends with the session at `comps`. -/
  | done (comps : List String)
  /-- Continue the outer loop at subtree `t`, cursor `comps`, stack
  `stack`. -/
  | enter (t : FTree) (comps : List String) (stack : List Frame)

/-- The inner loop of `walk`: pop the last remaining sibling and descend
into it (pushing the remaining siblings as a frame), or pop a frame and
move up one level, or finish when both are exhausted. -/
def nextDir (dirs : Frame) (stack : List Frame) (comps : List String) :
    List CwdEv × StepRes :=
  match dirs.getLast? with
  | some d =>
    ([.down d.1], .enter d.2.2 (comps ++ [d.1]) (dirs.dropLast :: stack))
  | none =>
    match stack with
    | fr :: rest =>
      let (evs, r) := nextDir fr rest (comps.dropLast)
      (.up :: evs, r)
    | [] => ([], .done comps)

/-- `ftp_obj.pwd()`: the absolute path of the session, starting path plus
the components entered below it. -/
def pwdStr (startingPath : String) (comps : List String) : String :=
  comps.foldl
    (fun acc c => if acc = "/" then acc ++ c else acc ++ "/" ++ c)
    startingPath

/-- One yielded record of `walk(ftp_obj, starting_path, include_dates=True)`:
the current path and the dated directory and file listings. -/
abbrev YieldRec := String × List Entry × List Entry

/-- Combined weight of the frames on the stack. -/
def stackW : List Frame → Nat :=
  List.foldr (fun f a => dirsSize f + a) 0

theorem nextDir_enter_size (dirs : Frame) (stack : List Frame)
    (comps : List String) (evs : List CwdEv) (t' : FTree)
    (c' : List String) (s' : List Frame)
    (h : nextDir dirs stack comps = (evs, .enter t' c' s')) :
    t'.size + stackW s' < dirsSize dirs + stackW stack := by
  induction stack generalizing dirs comps evs with
  | nil =>
    rw [nextDir] at h
    match hd : dirs.getLast? with
    | some d =>
      rw [hd] at h
      simp only [Prod.mk.injEq, StepRes.enter.injEq] at h
      obtain ⟨-, ht, hc, hs⟩ := h
      subst ht hs
      have hdirs : dirs.dropLast ++ [d] = dirs :=
        List.dropLast_append_getLast? d hd
      have : dirsSize dirs = dirsSize dirs.dropLast + (1 + d.2.2.size) := by
        conv_lhs => rw [← hdirs]
        simp [dirsSize_append, dirsSize]
      simp only [stackW, List.foldr]
      omega
    | none =>
      rw [hd] at h
      simp at h
  | cons fr rest ih =>
    rw [nextDir] at h
    match hd : dirs.getLast? with
    | some d =>
      rw [hd] at h
      simp only [Prod.mk.injEq, StepRes.enter.injEq] at h
      obtain ⟨-, ht, hc, hs⟩ := h
      subst ht hs
      have hdirs : dirs.dropLast ++ [d] = dirs :=
        List.dropLast_append_getLast? d hd
      have : dirsSize dirs = dirsSize dirs.dropLast + (1 + d.2.2.size) := by
        conv_lhs => rw [← hdirs]
        simp [dirsSize_append, dirsSize]
      simp only [stackW, List.foldr]
      omega
    | none =>
      rw [hd] at h
      simp only at h
      match he : nextDir fr rest comps.dropLast with
      | (evs2, r) =>
        rw [he] at h
        simp only [Prod.mk.injEq] at h
        obtain ⟨-, hr⟩ := h
        subst hr
        have := ih fr comps.dropLast evs2 he
        have hnil : dirsSize dirs = 0 := by
          have : dirs = [] := List.getLast?_eq_none_iff.mp hd
          simp [this, dirsSize]
        simp only [stackW, List.foldr] at *
        omega

/-- The outer `while not done` loop of `walk`: list the current directory
(the entries at the current node), yield, then run the inner loop.
Returns the yielded records and the trace of cursor movements. -/
def walkLoop (sp : String) (t : FTree) (comps : List String)
    (stack : List Frame) : List YieldRec × List CwdEv :=
  let y : YieldRec := (pwdStr sp comps, entriesOf t.dirs, t.files)
  match h : nextDir t.dirs stack comps with
  | (evs, .done _) => ([y], evs)
  | (evs, .enter t' c' s') =>
    let (ys, es) := walkLoop sp t' c' s'
    (y :: ys, evs ++ es)
termination_by t.size + stackW stack
decreasing_by
  have := nextDir_enter_size t.dirs stack comps evs t' c' s' h
  have hs := size_node t
  omega

/-- `walk(ftp_obj, starting_path='/', include_dates=True)`: the session is
first moved to the starting path (`t` is the server's directory there),
then the iterative loop runs with an empty stack.  The yields carry dated
entries (`include_dates=True`, as the spider uses it; `include_dates=False`
merely projects the names off each entry). -/
def walk (t : FTree) (startingPath : String := "/") :
    List YieldRec × List CwdEv :=
  walkLoop startingPath t [] []

/-! ## Spec-side recursive traversal

The reference depth-first pre-order traversal: visit the node, then its
subdirectories in reverse listing order (the `pop()`-from-the-end of the
walker).  `walk` is proved equal to it below. -/

mutual
/-- Yield records of the recursive depth-first traversal of `t` at cursor
`comps` (node first, children in reverse listing order). -/
def visitTree (sp : String) (t : FTree) (comps : List String) :
    List YieldRec :=
  (pwdStr sp comps, entriesOf t.dirs, t.files)
    :: visitDirs sp t.dirs.reverse comps
termination_by t.size
decreasing_by rw [size_node, dirsSize_reverse]; omega

/-- Yield records of visiting the given directory entries (already in
visit order) at cursor `comps`, each recursively. -/
def visitDirs (sp : String) (ds : List DirEnt) (comps : List String) :
    List YieldRec :=
  match ds with
  | [] => []
  | d :: rest => visitTree sp d.2.2 (comps ++ [d.1]) ++ visitDirs sp rest comps
termination_by dirsSize ds
decreasing_by
  all_goals simp [dirsSize]
  all_goals omega
end

mutual
/-- Cursor-movement events of the recursive traversal of `t`: enter each
subdirectory (in reverse listing order), traverse it, move back up. -/
def evT (t : FTree) : List CwdEv :=
  evD t.dirs.reverse
termination_by t.size
decreasing_by rw [size_node, dirsSize_reverse]; omega

def evD : List DirEnt → List CwdEv
  | [] => []
  | d :: rest => .down d.1 :: (evT d.2.2 ++ (.up :: evD rest))
termination_by ds => dirsSize ds
decreasing_by
  all_goals simp [dirsSize]
  all_goals omega
end

mutual
/-- The canonical depth-first pre-order path enumeration with siblings in
reverse listing order: the node's cursor, then the enumeration of each
subdirectory, last listed first.  Each directory of the tree contributes
exactly one element. -/
def preorderRev (t : FTree) (comps : List String) : List (List String) :=
  comps :: preorderList t.dirs.reverse comps
termination_by t.size
decreasing_by rw [size_node, dirsSize_reverse]; omega

def preorderList : List DirEnt → List String → List (List String)
  | [], _ => []
  | d :: rest, comps =>
    preorderRev d.2.2 (comps ++ [d.1]) ++ preorderList rest comps
termination_by ds _ => dirsSize ds
decreasing_by
  all_goals simp [dirsSize]
  all_goals omega
end

mutual
/-- Number of directories in the tree. -/
def countNodes (t : FTree) : Nat :=
  1 + countList t.dirs
termination_by t.size
decreasing_by rw [size_node]; omega

def countList : List DirEnt → Nat
  | [] => 0
  | d :: rest => countNodes d.2.2 + countList rest
termination_by ds => dirsSize ds
decreasing_by
  all_goals simp [dirsSize]
  all_goals omega
end

/-- Yields still to come from the frames on the stack after the current
subtree is exhausted: pop each frame, move up one level, visit its
remaining entries from the end. -/
def unwindF (sp : String) (stack : List Frame) (comps : List String) :
    List YieldRec :=
  match stack with
  | [] => []
  | fr :: rest =>
    visitDirs sp fr.reverse comps.dropLast
      ++ unwindF sp rest comps.dropLast

/-- Cursor events still to come from the frames on the stack. -/
def evStack : List Frame → List CwdEv
  | [] => []
  | fr :: rest => .up :: (evD fr.reverse ++ evStack rest)

/-! ## Walker correspondence -/

theorem getLast?_reverse_cons {α : Type} (l : List α) (a : α)
    (h : l.getLast? = some a) : l.reverse = a :: l.dropLast.reverse := by
  conv_lhs => rw [← List.dropLast_append_getLast? a h]
  simp

theorem nextDir_done_visit (sp : String) :
    ∀ (stack : List Frame) (dirs : Frame) (comps : List String)
      (evs : List CwdEv) (c : List String),
      nextDir dirs stack comps = (evs, .done c) →
      visitDirs sp dirs.reverse comps ++ unwindF sp stack comps = []
        ∧ evD dirs.reverse ++ evStack stack = evs := by
  intro stack
  induction stack with
  | nil =>
    intro dirs comps evs c h
    rw [nextDir] at h
    match hd : dirs.getLast? with
    | some d => rw [hd] at h; simp at h
    | none =>
      rw [hd] at h
      simp only [Prod.mk.injEq] at h
      have hnil : dirs = [] := List.getLast?_eq_none_iff.mp hd
      subst hnil
      simp [visitDirs, unwindF, evD, evStack, ← h.1]
  | cons fr rest ih =>
    intro dirs comps evs c h
    rw [nextDir] at h
    match hd : dirs.getLast? with
    | some d => rw [hd] at h; simp at h
    | none =>
      rw [hd] at h
      simp only at h
      match he : nextDir fr rest comps.dropLast with
      | (evs2, r) =>
        rw [he] at h
        simp only [Prod.mk.injEq] at h
        obtain ⟨hev, hr⟩ := h
        subst hr
        have hnil : dirs = [] := List.getLast?_eq_none_iff.mp hd
        subst hnil
        obtain ⟨h1, h2⟩ := ih fr comps.dropLast evs2 c he
        refine ⟨?_, ?_⟩
        · simp [visitDirs, unwindF, h1]
        · simp [evD, evStack, ← hev, h2]

theorem nextDir_enter_visit (sp : String) :
    ∀ (stack : List Frame) (dirs : Frame) (comps : List String)
      (evs : List CwdEv) (t' : FTree) (c' : List String) (s' : List Frame),
      nextDir dirs stack comps = (evs, .enter t' c' s') →
      (visitDirs sp dirs.reverse comps ++ unwindF sp stack comps
          = visitTree sp t' c' ++ unwindF sp s' c')
        ∧ evD dirs.reverse ++ evStack stack
            = evs ++ (evT t' ++ evStack s') := by
  have descend : ∀ (stack : List Frame) (dirs : Frame) (comps : List String)
      (evs : List CwdEv) (t' : FTree) (c' : List String) (s' : List Frame)
      (d : DirEnt), dirs.getLast? = some d →
      ([CwdEv.down d.1],
        StepRes.enter d.2.2 (comps ++ [d.1]) (dirs.dropLast :: stack))
        = (evs, .enter t' c' s') →
      (visitDirs sp dirs.reverse comps ++ unwindF sp stack comps
          = visitTree sp t' c' ++ unwindF sp s' c')
        ∧ evD dirs.reverse ++ evStack stack
            = evs ++ (evT t' ++ evStack s') := by
    intro stack dirs comps evs t' c' s' d hd h
    simp only [Prod.mk.injEq, StepRes.enter.injEq] at h
    obtain ⟨hev, ht, hc, hs⟩ := h
    subst hev ht hc hs
    have hrev : dirs.reverse = d :: dirs.dropLast.reverse :=
      getLast?_reverse_cons dirs d hd
    rw [hrev]
    constructor
    · rw [visitDirs]
      simp only [unwindF, List.dropLast_concat]
      simp [visitTree, List.append_assoc]
    · rw [evD]
      simp [evT, evStack, List.append_assoc]
  intro stack
  induction stack with
  | nil =>
    intro dirs comps evs t' c' s' h
    rw [nextDir] at h
    match hd : dirs.getLast? with
    | some d =>
      rw [hd] at h
      exact descend [] dirs comps evs t' c' s' d hd h
    | none => rw [hd] at h; simp at h
  | cons fr rest ih =>
    intro dirs comps evs t' c' s' h
    rw [nextDir] at h
    match hd : dirs.getLast? with
    | some d =>
      rw [hd] at h
      exact descend (fr :: rest) dirs comps evs t' c' s' d hd h
    | none =>
      rw [hd] at h
      simp only at h
      match he : nextDir fr rest comps.dropLast with
      | (evs2, r) =>
        rw [he] at h
        simp only [Prod.mk.injEq] at h
        obtain ⟨hev, hr⟩ := h
        subst hr
        have hnil : dirs = [] := List.getLast?_eq_none_iff.mp hd
        subst hnil
        obtain ⟨h1, h2⟩ := ih fr comps.dropLast evs2 t' c' s' he
        refine ⟨?_, ?_⟩
        · simp [visitDirs, unwindF, h1]
        · simp [evD, evStack, ← hev, h2]

theorem walkLoop_spec_aux (sp : String) :
    ∀ (n : Nat) (t : FTree) (comps : List String) (stack : List Frame),
      t.size + stackW stack ≤ n →
      walkLoop sp t comps stack
        = (visitTree sp t comps ++ unwindF sp stack comps,
           evT t ++ evStack stack) := by
  intro n
  induction n with
  | zero =>
    intro t comps stack hle
    exfalso
    have := size_node t
    omega
  | succ n ih =>
    intro t comps stack hle
    rw [walkLoop.eq_def]
    split
    · rename_i evs x h
      obtain ⟨h1, h2⟩ := nextDir_done_visit sp stack t.dirs comps evs x h
      rw [visitTree]
      simp [evT, h1, h2]
    · rename_i evs t' c' s' h
      have hlt := nextDir_enter_size t.dirs stack comps evs t' c' s' h
      have hsz := size_node t
      rw [ih t' c' s' (by omega)]
      obtain ⟨h1, h2⟩ := nextDir_enter_visit sp stack t.dirs comps evs t' c' s' h
      simp only [Prod.mk.injEq]
      refine ⟨?_, ?_⟩
      · conv_rhs => rw [visitTree]
        rw [List.cons_append, h1]
      · conv_rhs => rw [evT]
        rw [h2, evT]

/-- The iterative walker computes exactly the recursive depth-first
traversal of the current subtree followed by the unwinding of the stack. -/
theorem walkLoop_spec (sp : String) (t : FTree) (comps : List String)
    (stack : List Frame) :
    walkLoop sp t comps stack
      = (visitTree sp t comps ++ unwindF sp stack comps,
         evT t ++ evStack stack) :=
  walkLoop_spec_aux sp (t.size + stackW stack) t comps stack (Nat.le_refl _)

/-- `walk` is the recursive depth-first traversal from the starting path. -/
theorem walk_eq (t : FTree) (sp : String) :
    walk t sp = (visitTree sp t [], evT t) := by
  rw [walk, walkLoop_spec]
  simp [unwindF, evStack]

/-! ## Pre-order paths and node counts -/

theorem visitDirs_paths_aux (sp : String) :
    ∀ (n : Nat) (ds : List DirEnt) (comps : List String), dirsSize ds ≤ n →
      (visitDirs sp ds comps).map Prod.fst
        = (preorderList ds comps).map (pwdStr sp) := by
  intro n
  induction n with
  | zero =>
    intro ds comps hle
    match ds with
    | [] => simp [visitDirs, preorderList]
    | d :: rest => exfalso; simp [dirsSize] at hle
  | succ n ih =>
    intro ds comps hle
    match ds with
    | [] => simp [visitDirs, preorderList]
    | d :: rest =>
      have hsub := size_node d.2.2
      simp only [dirsSize] at hle
      rw [visitDirs, preorderList]
      simp only [List.map_append]
      congr 1
      · rw [visitTree, preorderRev]
        simp only [List.map_cons]
        congr 1
        have hsz : dirsSize d.2.2.dirs.reverse ≤ n := by
          rw [dirsSize_reverse]; omega
        exact ih d.2.2.dirs.reverse (comps ++ [d.1]) hsz
      · exact ih rest comps (by omega)

/-- The paths yielded by the recursive traversal are the pre-order
enumeration rendered through `pwd`. -/
theorem visitTree_paths (sp : String) (t : FTree) (comps : List String) :
    (visitTree sp t comps).map Prod.fst
      = (preorderRev t comps).map (pwdStr sp) := by
  rw [visitTree, preorderRev]
  simp only [List.map_cons]
  congr 1
  exact visitDirs_paths_aux sp (dirsSize t.dirs.reverse) t.dirs.reverse comps
    (Nat.le_refl _)

theorem countList_append (a b : List DirEnt) :
    countList (a ++ b) = countList a + countList b := by
  induction a with
  | nil => simp [countList]
  | cons d rest ih => rw [List.cons_append, countList, countList, ih]; omega

theorem countList_reverse (a : List DirEnt) :
    countList a.reverse = countList a := by
  induction a with
  | nil => rfl
  | cons d rest ih =>
    rw [List.reverse_cons, countList_append, countList, countList, countList, ih]
    omega

theorem preorderList_length_aux :
    ∀ (n : Nat) (ds : List DirEnt) (comps : List String), dirsSize ds ≤ n →
      (preorderList ds comps).length = countList ds := by
  intro n
  induction n with
  | zero =>
    intro ds comps hle
    match ds with
    | [] => simp [preorderList, countList]
    | d :: rest => exfalso; simp [dirsSize] at hle
  | succ n ih =>
    intro ds comps hle
    match ds with
    | [] => simp [preorderList, countList]
    | d :: rest =>
      have hsub := size_node d.2.2
      simp only [dirsSize] at hle
      rw [preorderList, countList]
      simp only [List.length_append]
      have h1 : (preorderRev d.2.2 (comps ++ [d.1])).length = countNodes d.2.2 := by
        rw [preorderRev, countNodes]
        simp only [List.length_cons]
        have hsz : dirsSize d.2.2.dirs.reverse ≤ n := by
          rw [dirsSize_reverse]; omega
        rw [ih d.2.2.dirs.reverse (comps ++ [d.1]) hsz]
        rw [countList_reverse]
        omega
      rw [h1, ih rest comps (by omega)]

/-- The pre-order enumeration has one element per directory of the tree. -/
theorem preorderRev_length (t : FTree) (comps : List String) :
    (preorderRev t comps).length = countNodes t := by
  rw [preorderRev, countNodes]
  simp only [List.length_cons]
  rw [preorderList_length_aux (dirsSize t.dirs.reverse) t.dirs.reverse comps
    (Nat.le_refl _)]
  rw [countList_reverse]
  omega

/-! ## Cursor/stack synchronisation -/

def isUp : CwdEv → Bool
  | .up => true
  | .down _ => false

def isDown : CwdEv → Bool
  | .up => false
  | .down _ => true

/-- Number of `cwd("..")` calls in an event trace. -/
def countUp (l : List CwdEv) : Nat := l.countP isUp

/-- Number of `cwd(next_dir)` calls in an event trace. -/
def countDown (l : List CwdEv) : Nat := l.countP isDown

theorem countUp_nil : countUp [] = 0 := rfl

theorem countDown_nil : countDown [] = 0 := rfl

theorem countUp_cons_up (l : List CwdEv) :
    countUp (.up :: l) = countUp l + 1 := by
  simp [countUp, List.countP_cons, isUp]

theorem countUp_cons_down (nm : String) (l : List CwdEv) :
    countUp (.down nm :: l) = countUp l := by
  simp [countUp, List.countP_cons, isUp]

theorem countDown_cons_up (l : List CwdEv) :
    countDown (.up :: l) = countDown l := by
  simp [countDown, List.countP_cons, isDown]

theorem countDown_cons_down (nm : String) (l : List CwdEv) :
    countDown (.down nm :: l) = countDown l + 1 := by
  simp [countDown, List.countP_cons, isDown]

theorem countUp_append (a b : List CwdEv) :
    countUp (a ++ b) = countUp a + countUp b := by
  simp [countUp, List.countP_append]

theorem countDown_append (a b : List CwdEv) :
    countDown (a ++ b) = countDown a + countDown b := by
  simp [countDown, List.countP_append]

theorem evD_balance_aux :
    ∀ (n : Nat) (ds : List DirEnt), dirsSize ds ≤ n →
      countUp (evD ds) = countDown (evD ds) := by
  intro n
  induction n with
  | zero =>
    intro ds hle
    match ds with
    | [] => simp [evD, countUp, countDown]
    | d :: rest => exfalso; simp [dirsSize] at hle
  | succ n ih =>
    intro ds hle
    match ds with
    | [] => simp [evD, countUp, countDown]
    | d :: rest =>
      have hsub := size_node d.2.2
      simp only [dirsSize] at hle
      rw [evD]
      have h1 : countUp (evT d.2.2) = countDown (evT d.2.2) := by
        rw [evT]
        exact ih d.2.2.dirs.reverse (by rw [dirsSize_reverse]; omega)
      have h2 := ih rest (by omega)
      rw [countUp_cons_down, countDown_cons_down, countUp_append,
        countDown_append, countUp_cons_up, countDown_cons_up]
      omega

/-- The full cursor trace of a traversal is balanced: one ascent per
descent. -/
theorem evT_balance (t : FTree) : countUp (evT t) = countDown (evT t) := by
  rw [evT]
  exact evD_balance_aux (dirsSize t.dirs.reverse) t.dirs.reverse (Nat.le_refl _)

/-- Stepping the inner loop from a state whose stack depth equals the
cursor depth preserves that equality. -/
theorem nextDir_enter_depth :
    ∀ (stack : List Frame) (dirs : Frame) (comps : List String)
      (evs : List CwdEv) (t' : FTree) (c' : List String) (s' : List Frame),
      stack.length = comps.length →
      nextDir dirs stack comps = (evs, .enter t' c' s') →
      s'.length = c'.length := by
  intro stack
  induction stack with
  | nil =>
    intro dirs comps evs t' c' s' hinv h
    rw [nextDir] at h
    match hd : dirs.getLast? with
    | some d =>
      rw [hd] at h
      simp only [Prod.mk.injEq, StepRes.enter.injEq] at h
      obtain ⟨-, -, hc, hs⟩ := h
      subst hc hs
      simp [← hinv]
    | none => rw [hd] at h; simp at h
  | cons fr rest ih =>
    intro dirs comps evs t' c' s' hinv h
    rw [nextDir] at h
    match hd : dirs.getLast? with
    | some d =>
      rw [hd] at h
      simp only [Prod.mk.injEq, StepRes.enter.injEq] at h
      obtain ⟨-, -, hc, hs⟩ := h
      subst hc hs
      simp [← hinv]
    | none =>
      rw [hd] at h
      simp only at h
      match he : nextDir fr rest comps.dropLast with
      | (evs2, r) =>
        rw [he] at h
        simp only [Prod.mk.injEq] at h
        obtain ⟨-, hr⟩ := h
        subst hr
        have hlen : rest.length = comps.dropLast.length := by
          simp only [List.length_cons] at hinv
          rw [List.length_dropLast]
          omega
        exact ih fr comps.dropLast evs2 t' c' s' hlen he

/-- When the inner loop finishes from a depth-synchronised state, the
cursor is back at the starting path. -/
theorem nextDir_done_root :
    ∀ (stack : List Frame) (dirs : Frame) (comps : List String)
      (evs : List CwdEv) (c : List String),
      stack.length = comps.length →
      nextDir dirs stack comps = (evs, .done c) →
      c = [] := by
  intro stack
  induction stack with
  | nil =>
    intro dirs comps evs c hinv h
    rw [nextDir] at h
    match hd : dirs.getLast? with
    | some d => rw [hd] at h; simp at h
    | none =>
      rw [hd] at h
      simp only [Prod.mk.injEq, StepRes.done.injEq] at h
      have : comps = [] := List.eq_nil_of_length_eq_zero hinv.symm
      subst this
      exact h.2.symm
  | cons fr rest ih =>
    intro dirs comps evs c hinv h
    rw [nextDir] at h
    match hd : dirs.getLast? with
    | some d => rw [hd] at h; simp at h
    | none =>
      rw [hd] at h
      simp only at h
      match he : nextDir fr rest comps.dropLast with
      | (evs2, r) =>
        rw [he] at h
        simp only [Prod.mk.injEq] at h
        obtain ⟨-, hr⟩ := h
        subst hr
        have hlen : rest.length = comps.dropLast.length := by
          simp only [List.length_cons] at hinv
          rw [List.length_dropLast]
          omega
        exact ih fr comps.dropLast evs2 c hlen he

/-- Each inner-loop step changes the stack depth and the cursor depth by
exactly the balance of `down` and `up` events it emits: every push is
paired with one descent, every pop with one ascent. -/
theorem nextDir_enter_events :
    ∀ (stack : List Frame) (dirs : Frame) (comps : List String)
      (evs : List CwdEv) (t' : FTree) (c' : List String) (s' : List Frame),
      stack.length ≤ comps.length →
      nextDir dirs stack comps = (evs, .enter t' c' s') →
      s'.length + countUp evs = stack.length + countDown evs
        ∧ c'.length + countUp evs = comps.length + countDown evs := by
  intro stack
  induction stack with
  | nil =>
    intro dirs comps evs t' c' s' hle h
    rw [nextDir] at h
    match hd : dirs.getLast? with
    | some d =>
      rw [hd] at h
      simp only [Prod.mk.injEq, StepRes.enter.injEq] at h
      obtain ⟨hev, -, hc, hs⟩ := h
      subst hev hc hs
      rw [countUp_cons_down, countDown_cons_down, countUp_nil, countDown_nil]
      simp
    | none => rw [hd] at h; simp at h
  | cons fr rest ih =>
    intro dirs comps evs t' c' s' hle h
    rw [nextDir] at h
    match hd : dirs.getLast? with
    | some d =>
      rw [hd] at h
      simp only [Prod.mk.injEq, StepRes.enter.injEq] at h
      obtain ⟨hev, -, hc, hs⟩ := h
      subst hev hc hs
      rw [countUp_cons_down, countDown_cons_down, countUp_nil, countDown_nil]
      simp
    | none =>
      rw [hd] at h
      simp only at h
      match he : nextDir fr rest comps.dropLast with
      | (evs2, r) =>
        rw [he] at h
        simp only [Prod.mk.injEq] at h
        obtain ⟨hev, hr⟩ := h
        subst hr
        have hcne : comps ≠ [] := by
          intro hc
          subst hc
          simp at hle
        have hcpos : 0 < comps.length := List.length_pos.mpr hcne
        have hlen : comps.dropLast.length = comps.length - 1 :=
          List.length_dropLast comps
        have hle2 : rest.length ≤ comps.dropLast.length := by
          simp only [List.length_cons] at hle
          omega
        obtain ⟨h1, h2⟩ := ih fr comps.dropLast evs2 t' c' s' hle2 he
        subst hev
        rw [countUp_cons_up, countDown_cons_up]
        simp only [List.length_cons]
        omega

/-- States of the walker loop: current subtree, cursor components below
the starting path, frame stack. -/
abbrev WalkSt := FTree × List String × List Frame

/-- Reachability of a loop state from the initial state of
`walk(ftp_obj, starting_path)` via the inner loop. -/
inductive WalkReachable (t0 : FTree) : WalkSt → Prop where
  | init : WalkReachable t0 (t0, [], [])
  | step {t : FTree} {c : List String} {s : List Frame} {evs : List CwdEv}
      {t' : FTree} {c' : List String} {s' : List Frame} :
      WalkReachable t0 (t, c, s) →
      nextDir t.dirs s c = (evs, .enter t' c' s') →
      WalkReachable t0 (t', c', s')

/-- The depth invariant holds at every reachable loop state. -/
theorem walkReachable_depth (t0 : FTree) (st : WalkSt)
    (h : WalkReachable t0 st) : st.2.2.length = st.2.1.length := by
  induction h with
  | init => rfl
  | step hr hstep ih => exact nextDir_enter_depth _ _ _ _ _ _ _ ih hstep

/-! ## The spider controller (`FTPSpider.spider`)

State and effects of one spidering run.  The `_downloaded` dictionary is an
association list; local-filesystem and session effects are recorded as an
event trace; `retrbinary` failures are modelled by an oracle `dlOk` on the
fully-qualified remote path — the first failure raises, which aborts the
traversal exactly as a Python exception would, lands in the
`except Exception` handler and then in the `finally` block. -/

/-- Python `os.path.join(a, b)` for POSIX paths. -/
def pyJoin2 (a b : String) : String :=
  if listStartsWith ['/'] b.data then b
  else if a = "" ∨ a.data.getLast? = some '/' then a ++ b
  else a ++ "/" ++ b

/-- `os.path.join(self._tar_dir, *cwd_parts)`. -/
def pyJoinAll (base : String) (parts : List String) : String :=
  parts.foldl pyJoin2 base

/-- Observable effects of a spidering run. -/
inductive SEv where
  /-- `os.mkdir(write_dir)`. -/
  | mkdir (d : String)
  /-- `os.chdir(d)`. -/
  | chdir (d : String)
  /-- `retrbinary("RETR " + name)` for the file at fully-qualified remote
  path `p`; `ok` records whether it completed or raised. -/
  | retr (name : String) (p : String) (ok : Bool)
  /-- `self._downloaded[p] = date`. -/
  | record (p : String) (date : Date)
  /-- `traceback.print_exc()` in the `except Exception` handler. -/
  | logErr
  /-- `pickle.dump(m, ...)` of the state dictionary into the state file. -/
  | save (m : List (String × Date))
  /-- `self._ftp.quit()`. -/
  | quit
deriving DecidableEq, Repr

/-- Python dictionary lookup `m[k]` / `k in m` on an association list. -/
def lookupD (m : List (String × Date)) (k : String) : Option Date :=
  match m with
  | [] => none
  | (k', v) :: rest => if k' = k then some v else lookupD rest k

/-- Python dictionary assignment `m[k] = v`. -/
def insertD (m : List (String × Date)) (k : String) (v : Date) :
    List (String × Date) :=
  match m with
  | [] => [(k, v)]
  | (k', v') :: rest =>
    if k' = k then (k, v) :: rest else (k', v') :: insertD rest k v

/-- Controller state: the `_downloaded` dictionary, the set of local
directories that exist, and the effect trace. -/
structure SpSt where
  downloaded : List (String × Date)
  existing : List String
  trace : List SEv
deriving DecidableEq, Repr

/-- The per-file body of the spider's inner loop.  Returns the new state
and whether an exception was raised (a failed `retrbinary`).

Mirrors: skip link entries (`"->" in _file`); build the fully-qualified
remote path; skip when the recorded timestamp is at least the listed one;
otherwise download (`__download`) and only then record the new timestamp. -/
def procFile (dlOk : String → Bool) (cwd : String) (st : SpSt)
    (fe : Entry) : SpSt × Bool :=
  if hasArrow fe.1 then (st, false)
  else
    let p := cwd ++ "/" ++ fe.1
    let skip :=
      match lookupD st.downloaded p with
      | some d0 => dateLe fe.2 d0
      | none => false
    if skip then (st, false)
    else if dlOk p then
      ({ st with
          downloaded := insertD st.downloaded p fe.2,
          trace := st.trace ++ [.retr fe.1 p true, .record p fe.2] }, false)
    else
      ({ st with trace := st.trace ++ [.retr fe.1 p false] }, true)

/-- The spider's loop over the file entries of one directory; a raised
exception aborts the rest. -/
def procFiles (dlOk : String → Bool) (cwd : String) :
    List Entry → SpSt → SpSt × Bool
  | [], st => (st, false)
  | f :: rest, st =>
    match procFile dlOk cwd st f with
    | (st', true) => (st', true)
    | (st', false) => procFiles dlOk cwd rest st'

/-- The spider's per-directory body: compute the local mirror directory,
create it if absent, `os.chdir` into it, then process the files. -/
def procYield (tarDir : String) (dlOk : String → Bool) (st : SpSt)
    (y : YieldRec) : SpSt × Bool :=
  let writeDir := pyJoinAll tarDir (pySplitSlash y.1)
  let st1 :=
    if writeDir ∈ st.existing then st
    else { st with
            existing := writeDir :: st.existing,
            trace := st.trace ++ [.mkdir writeDir] }
  let st2 := { st1 with trace := st1.trace ++ [.chdir writeDir] }
  procFiles dlOk y.1 y.2.2 st2

/-- The spider's loop over the walker's yields; a raised exception aborts
the rest of the traversal. -/
def spiderYields (tarDir : String) (dlOk : String → Bool) :
    List YieldRec → SpSt → SpSt × Bool
  | [], st => (st, false)
  | y :: rest, st =>
    match procYield tarDir dlOk st y with
    | (st', true) => (st', true)
    | (st', false) => spiderYields tarDir dlOk rest st'

/-- `FTPSpider.spider`: remember the working directory, run the traversal
over `walk(self._ftp, include_dates=True)` (note: no starting-path
argument — the walker's default `'/'` is used), catch and log any
exception, and in the `finally` block restore the working directory and
finalize (`pickle.dump` the state dictionary, `quit` the session).

`downloaded0` is the dictionary loaded from the state file (empty when the
file does not exist), `existing0` the initially existing local
directories, `prevCwd` the `os.getcwd()` captured on entry. -/
def spider (tree : FTree) (tarDir prevCwd : String)
    (downloaded0 : List (String × Date)) (existing0 : List String)
    (dlOk : String → Bool) : SpSt :=
  let st0 : SpSt := ⟨downloaded0, existing0, []⟩
  let res := spiderYields tarDir dlOk (walk tree).1 st0
  let st1 :=
    if res.2 then { res.1 with trace := res.1.trace ++ [.logErr] } else res.1
  { st1 with
      trace := st1.trace ++ [.chdir prevCwd, .save st1.downloaded, .quit] }

/-- The remote directories the spider's `for` loop iterates over: the
yields of `walk(self._ftp, include_dates=True)` — the walker invoked
without a starting-path argument. -/
def spiderDirs (tree : FTree) : List String :=
  (walk tree).1.map Prod.fst

/-! ## Trace correctness of the controller -/

/-- Per-event check of `recOkAux`: a `record` event is admissible only
right after a successful `retr` of the same path. -/
def recStep (prev : Option SEv) (e : SEv) : Bool :=
  match e, prev with
  | .record p _, some (.retr _ p' true) => p' == p
  | .record _ _, _ => false
  | _, _ => true

/-- Scan a trace remembering the previous event. -/
def recOkAux (prev : Option SEv) : List SEv → Bool
  | [] => true
  | e :: rest => recStep prev e && recOkAux (some e) rest

/-- Every `record` event of the trace immediately follows a successful
`retr` of the same fully-qualified path. -/
def recOk (tr : List SEv) : Bool := recOkAux none tr

/-- The last event of `a`, or `prev` when `a` is empty. -/
def lastO (prev : Option SEv) : List SEv → Option SEv
  | [] => prev
  | e :: rest => lastO (some e) rest

theorem recOkAux_append (a b : List SEv) :
    ∀ prev, recOkAux prev (a ++ b)
      = (recOkAux prev a && recOkAux (lastO prev a) b) := by
  induction a with
  | nil => intro prev; simp [recOkAux, lastO]
  | cons e a ih =>
    intro prev
    rw [List.cons_append, recOkAux, recOkAux, ih (some e), lastO,
      Bool.and_assoc]

/-- Non-`record` events pass the scan whatever precedes them. -/
theorem recStep_not_record (prev : Option SEv) (e : SEv)
    (h : ∀ p d, e ≠ .record p d) : recStep prev e = true := by
  match e with
  | .mkdir d => rfl
  | .chdir d => rfl
  | .retr nm p ok => rfl
  | .logErr => rfl
  | .save m => rfl
  | .quit => rfl
  | .record p d => exact absurd rfl (h p d)

theorem recOkAux_retr_record (prev : Option SEv) (nm p : String) (d : Date) :
    recOkAux prev [.retr nm p true, .record p d] = true := by
  simp [recOkAux, recStep]

theorem recOkAux_single (prev : Option SEv) (e : SEv)
    (h : ∀ p d, e ≠ .record p d) : recOkAux prev [e] = true := by
  simp [recOkAux, recStep_not_record prev e h]

theorem lookupD_insertD (m : List (String × Date)) (k : String) (v : Date)
    (k' : String) :
    lookupD (insertD m k v) k'
      = if k = k' then some v else lookupD m k' := by
  induction m with
  | nil =>
    by_cases h : k = k' <;> simp [insertD, lookupD, h]
  | cons kv rest ih =>
    obtain ⟨k2, v2⟩ := kv
    rw [insertD]
    by_cases h2 : k2 = k
    · subst h2
      rw [if_pos rfl, lookupD, lookupD]
      by_cases h : k2 = k' <;> simp [h]
    · rw [if_neg h2, lookupD, lookupD]
      by_cases h : k2 = k'
      · subst h
        have hne : ¬ k = k2 := fun hk => h2 hk.symm
        simp [hne]
      · simp [h, ih]

/-- Run invariant of the controller: the trace records downloads before
timestamps, every entry of the dictionary is either inherited from the
loaded state or was recorded during this run, and no link-named file was
ever handed to `retrbinary`. -/
def TraceInv (dl0 : List (String × Date)) (st : SpSt) : Prop :=
  recOk st.trace = true
  ∧ (∀ p d, lookupD st.downloaded p = some d →
      lookupD dl0 p = some d ∨ SEv.record p d ∈ st.trace)
  ∧ (∀ nm p ok, SEv.retr nm p ok ∈ st.trace → hasArrow nm = false)

theorem procFile_inv (dl0 : List (String × Date)) (dlOk : String → Bool)
    (cwd : String) (st : SpSt) (fe : Entry) (h : TraceInv dl0 st) :
    TraceInv dl0 (procFile dlOk cwd st fe).1 := by
  obtain ⟨h1, h2, h3⟩ := h
  rw [procFile]
  by_cases ha : hasArrow fe.1
  · simp only [ha, if_true]
    exact ⟨h1, h2, h3⟩
  · simp only [ha, Bool.false_eq_true, if_false]
    set p := cwd ++ "/" ++ fe.1 with hp
    cases hsk : (match lookupD st.downloaded p with
      | some d0 => dateLe fe.2 d0
      | none => false) with
    | true => simp only [if_true]; exact ⟨h1, h2, h3⟩
    | false =>
      simp only [Bool.false_eq_true, if_false]
      by_cases hdl : dlOk p
      · simp only [hdl, if_true]
        refine ⟨?_, ?_, ?_⟩
        · have h1' : recOkAux none st.trace = true := h1
          show recOkAux none (st.trace ++ _) = true
          rw [recOkAux_append, h1', recOkAux_retr_record]
          rfl
        · intro p2 d2 hlk
          rw [lookupD_insertD] at hlk
          by_cases hpe : p = p2
          · subst hpe
            simp only [if_true] at hlk
            right
            rw [Option.some.injEq] at hlk
            subst hlk
            simp
          · rw [if_neg hpe] at hlk
            rcases h2 p2 d2 hlk with hl | hr
            · exact Or.inl hl
            · right; simp [hr]
        · intro nm2 p2 ok2 hmem
          simp only [List.mem_append, List.mem_cons,
            List.not_mem_nil, or_false] at hmem
          rcases hmem with hmem | hmem | hmem
          · exact h3 nm2 p2 ok2 hmem
          · rw [SEv.retr.injEq] at hmem
            rw [hmem.1]
            simpa using ha
          · exact absurd hmem (by simp)
      · simp only [hdl, Bool.false_eq_true, if_false]
        refine ⟨?_, ?_, ?_⟩
        · have h1' : recOkAux none st.trace = true := h1
          show recOkAux none (st.trace ++ _) = true
          rw [recOkAux_append, h1', recOkAux_single]
          · rfl
          · intro p2 d2 hne
            cases hne
        · intro p2 d2 hlk
          rcases h2 p2 d2 hlk with hl | hr
          · exact Or.inl hl
          · right; simp [hr]
        · intro nm2 p2 ok2 hmem
          simp only [List.mem_append, List.mem_cons,
            List.not_mem_nil, or_false] at hmem
          rcases hmem with hmem | hmem
          · exact h3 nm2 p2 ok2 hmem
          · rw [SEv.retr.injEq] at hmem
            rw [hmem.1]
            simpa using ha

/-- Appending a non-`record`, non-`retr` effect preserves the run
invariant (the `existing` component is irrelevant to it). -/
theorem TraceInv.append_misc {dl0 : List (String × Date)} {st st' : SpSt}
    (e : SEv) (h : TraceInv dl0 st)
    (hd : st'.downloaded = st.downloaded)
    (ht : st'.trace = st.trace ++ [e])
    (hrec : ∀ p d, e ≠ .record p d)
    (hretr : ∀ nm p ok, e ≠ .retr nm p ok) : TraceInv dl0 st' := by
  obtain ⟨h1, h2, h3⟩ := h
  refine ⟨?_, ?_, ?_⟩
  · have h1' : recOkAux none st.trace = true := h1
    show recOkAux none st'.trace = true
    rw [ht, recOkAux_append, h1', recOkAux_single _ _ hrec]
    rfl
  · intro p d hlk
    rw [hd] at hlk
    rcases h2 p d hlk with hl | hr
    · exact Or.inl hl
    · right; rw [ht]; simp [hr]
  · intro nm p ok hmem
    rw [ht] at hmem
    simp only [List.mem_append, List.mem_singleton] at hmem
    rcases hmem with hmem | hmem
    · exact h3 nm p ok hmem
    · exact absurd hmem.symm (hretr nm p ok)

theorem procFiles_inv (dl0 : List (String × Date)) (dlOk : String → Bool)
    (cwd : String) :
    ∀ (files : List Entry) (st : SpSt), TraceInv dl0 st →
      TraceInv dl0 (procFiles dlOk cwd files st).1 := by
  intro files
  induction files with
  | nil => intro st h; exact h
  | cons f rest ih =>
    intro st h
    have hinv' := procFile_inv dl0 dlOk cwd st f h
    rcases hpf : procFile dlOk cwd st f with ⟨st', raised⟩
    rw [hpf] at hinv'
    cases raised
    · rw [procFiles, hpf]
      exact ih st' hinv'
    · rw [procFiles, hpf]
      exact hinv'

theorem procYield_inv (dl0 : List (String × Date)) (tarDir : String)
    (dlOk : String → Bool) (st : SpSt) (y : YieldRec) (h : TraceInv dl0 st) :
    TraceInv dl0 (procYield tarDir dlOk st y).1 := by
  rw [procYield]
  have h1 : TraceInv dl0
      (if pyJoinAll tarDir (pySplitSlash y.1) ∈ st.existing then st
       else { st with
               existing := pyJoinAll tarDir (pySplitSlash y.1) :: st.existing,
               trace := st.trace
                 ++ [.mkdir (pyJoinAll tarDir (pySplitSlash y.1))] }) := by
    by_cases hex : pyJoinAll tarDir (pySplitSlash y.1) ∈ st.existing
    · rw [if_pos hex]; exact h
    · rw [if_neg hex]
      exact TraceInv.append_misc (SEv.mkdir _) h rfl rfl
        (by intro p d hne; cases hne) (by intro nm p ok hne; cases hne)
  apply procFiles_inv
  exact TraceInv.append_misc (SEv.chdir _) h1 rfl rfl
    (by intro p d hne; cases hne) (by intro nm p ok hne; cases hne)

theorem spiderYields_inv (dl0 : List (String × Date)) (tarDir : String)
    (dlOk : String → Bool) :
    ∀ (ys : List YieldRec) (st : SpSt), TraceInv dl0 st →
      TraceInv dl0 (spiderYields tarDir dlOk ys st).1 := by
  intro ys
  induction ys with
  | nil => intro st h; exact h
  | cons y rest ih =>
    intro st h
    have hinv' := procYield_inv dl0 tarDir dlOk st y h
    rcases hpy : procYield tarDir dlOk st y with ⟨st', raised⟩
    rw [hpy] at hinv'
    cases raised
    · rw [spiderYields, hpy]
      exact ih st' hinv'
    · rw [spiderYields, hpy]
      exact hinv'

theorem recOkAux_final (prev : Option SEv) (d : String)
    (m : List (String × Date)) :
    recOkAux prev [.chdir d, .save m, .quit] = true := rfl

/-- The run invariant holds of the final state of every spidering run. -/
theorem spider_inv (tree : FTree) (tarDir prevCwd : String)
    (dl0 : List (String × Date)) (ex0 : List String)
    (dlOk : String → Bool) :
    TraceInv dl0 (spider tree tarDir prevCwd dl0 ex0 dlOk) := by
  have h0 : TraceInv dl0 ⟨dl0, ex0, []⟩ := by
    refine ⟨rfl, ?_, ?_⟩
    · intro p d hlk
      exact Or.inl hlk
    · intro nm p ok hmem
      cases hmem
  have hrun := spiderYields_inv dl0 tarDir dlOk (walk tree).1 ⟨dl0, ex0, []⟩ h0
  rw [spider]
  set res := spiderYields tarDir dlOk (walk tree).1 ⟨dl0, ex0, []⟩ with hres
  have hmid : TraceInv dl0
      (if res.2 then { res.1 with trace := res.1.trace ++ [.logErr] }
       else res.1) := by
    by_cases hr : res.2
    · simp only [hr, if_true]
      exact TraceInv.append_misc SEv.logErr hrun rfl rfl
        (by intro p d hne; cases hne) (by intro nm p ok hne; cases hne)
    · simp only [hr, if_false]
      exact hrun
  set st1 := if res.2 then { res.1 with trace := res.1.trace ++ [.logErr] }
    else res.1 with hst1
  obtain ⟨h1, h2, h3⟩ := hmid
  refine ⟨?_, ?_, ?_⟩
  · have h1' : recOkAux none st1.trace = true := h1
    show recOkAux none (st1.trace ++ _) = true
    rw [recOkAux_append, h1', recOkAux_final]
    rfl
  · intro p d hlk
    rcases h2 p d hlk with hl | hr
    · exact Or.inl hl
    · right; simp [hr]
  · intro nm p ok hmem
    simp only [List.mem_append, List.mem_cons, List.not_mem_nil,
      or_false] at hmem
    rcases hmem with hmem | hmem | hmem | hmem
    · exact h3 nm p ok hmem
    · exact absurd hmem (by simp)
    · exact absurd hmem (by simp)
    · exact absurd hmem (by simp)

/-! ## Remaining helpers for the claim theorems -/

theorem SpSt_trace_append_ne (s : SpSt) (es : List SEv) (hne : es ≠ []) :
    ({ s with trace := s.trace ++ es } : SpSt) ≠ s := by
  intro heq
  have h2 := congrArg SpSt.trace heq
  simp only at h2
  have h3 := congrArg List.length h2
  rw [List.length_append] at h3
  have h4 : es.length = 0 := by omega
  exact hne (List.eq_nil_of_length_eq_zero h4)

theorem strptimeBDY_time_zero (s : String) (dt : Date)
    (h : strptimeBDY s = .ok dt) :
    dt.hour = 0 ∧ dt.minute = 0 ∧ dt.second = 0 := by
  rw [strptimeBDY] at h
  split at h
  · split at h
    · split at h
      · rw [Except.ok.injEq] at h
        subst h
        exact ⟨rfl, rfl, rfl⟩
      · cases h
    · cases h
  · cases h

theorem walk_yields_length (t : FTree) (sp : String) :
    ((walk t sp).1).length = countNodes t := by
  rw [walk_eq]
  have hpaths := visitTree_paths sp t []
  have hlen := congrArg List.length hpaths
  simp only [List.length_map] at hlen
  rw [hlen, preorderRev_length]

/-! ## Claim theorems -/

/-- C1: for every directory tree, the `walk` generator visits every
directory exactly once, in depth-first pre-order, and the traversal order
among siblings is the reverse of the order in which they appeared in the
directory listing: the sequence of yielded paths is exactly the
reverse-sibling pre-order enumeration `preorderRev` (one element per
directory of the tree), rendered through `pwd`. -/
theorem walk_visits_preorder (t : FTree) (sp : String) :
    ((walk t sp).1).map Prod.fst = (preorderRev t []).map (pwdStr sp)
      ∧ ((walk t sp).1).length = countNodes t := by
  constructor
  · rw [walk_eq]
    exact visitTree_paths sp t []
  · exact walk_yields_length t sp

/-- C2: throughout a walk the session's cursor stays synchronised with the
explicit stack: at every reachable loop state the stack's length equals
the current depth below the starting path; stepping the inner loop changes
stack depth and cursor depth by exactly the balance of `down` (push) and
`up` (pop) events it performs — every push is paired with one descent and
every pop with one ascent; when the inner loop reports termination the
cursor is back at the starting path; and the complete walk performs
exactly one `cwd("..")` for every `cwd(next_dir)`. -/
theorem walk_cursor_stack_sync (sp : String) (t0 : FTree) (st : WalkSt)
    (h : WalkReachable t0 st) :
    st.2.2.length = st.2.1.length
    ∧ (∀ evs c, nextDir st.1.dirs st.2.2 st.2.1 = (evs, .done c) →
        c = [] ∧ pwdStr sp c = sp)
    ∧ (∀ evs t' c' s',
        nextDir st.1.dirs st.2.2 st.2.1 = (evs, .enter t' c' s') →
        s'.length + countUp evs = st.2.2.length + countDown evs
          ∧ c'.length + countUp evs = st.2.1.length + countDown evs)
    ∧ countUp (walk t0 sp).2 = countDown (walk t0 sp).2 := by
  have hdepth := walkReachable_depth t0 st h
  refine ⟨hdepth, ?_, ?_, ?_⟩
  · intro evs c hnd
    have hc := nextDir_done_root st.2.2 st.1.dirs st.2.1 evs c hdepth hnd
    exact ⟨hc, by rw [hc]; rfl⟩
  · intro evs t' c' s' hnd
    exact nextDir_enter_events st.2.2 st.1.dirs st.2.1 evs t' c' s'
      (le_of_eq hdepth) hnd
  · rw [walk_eq]
    exact evT_balance t0

/-- Witness for C2 at the initial state of the walk of a one-directory
server. -/
theorem walk_cursor_stack_sync_witness :
    ([] : List Frame).length = ([] : List String).length
    ∧ (∀ evs c, nextDir (FTree.node [] []).dirs [] [] = (evs, .done c) →
        c = [] ∧ pwdStr "/" c = "/")
    ∧ (∀ evs t' c' s',
        nextDir (FTree.node [] []).dirs [] [] = (evs, .enter t' c' s') →
        s'.length + countUp evs = ([] : List Frame).length + countDown evs
          ∧ c'.length + countUp evs
              = ([] : List String).length + countDown evs)
    ∧ countUp (walk (FTree.node [] []) "/").2
        = countDown (walk (FTree.node [] []) "/").2 :=
  walk_cursor_stack_sync "/" (FTree.node [] [])
    (FTree.node [] [], [], []) WalkReachable.init

/-- C3: whether the traversal completes or raises, the controller's
`finally` block always runs: the trace of every spidering run ends with
restoring the prior working directory, then persisting the state
dictionary (exactly the final `_downloaded` mapping), then closing the
session; and when the traversal raised, the exception was caught and
logged (`logErr` appears in the trace) instead of propagating — `spider`
is a total function on every oracle. -/
theorem spider_always_finalizes (tree : FTree) (tarDir prevCwd : String)
    (dl0 : List (String × Date)) (ex0 : List String)
    (dlOk : String → Bool) :
    (∃ pre, (spider tree tarDir prevCwd dl0 ex0 dlOk).trace
        = pre ++ [SEv.chdir prevCwd,
            SEv.save (spider tree tarDir prevCwd dl0 ex0 dlOk).downloaded,
            SEv.quit])
    ∧ ((spiderYields tarDir dlOk (walk tree).1 ⟨dl0, ex0, []⟩).2 = true →
        SEv.logErr ∈ (spider tree tarDir prevCwd dl0 ex0 dlOk).trace) := by
  constructor
  · exact ⟨_, rfl⟩
  · intro hr
    show SEv.logErr ∈ (spider tree tarDir prevCwd dl0 ex0 dlOk).trace
    rw [spider]
    simp only [hr, if_true]
    simp

/-- C4: a fully-qualified remote path is recorded in the state dictionary
only after its retrieval completed: in every run's trace each `record`
event immediately follows a successful `retr` of the same path (`recOk`);
every binding of the final dictionary is either inherited from the loaded
state or was recorded during the run; and when a download raises, the
per-file step leaves the dictionary unchanged and reports the exception,
so no timestamp for that file is recorded. -/
theorem state_records_completed (tree : FTree) (tarDir prevCwd : String)
    (dl0 : List (String × Date)) (ex0 : List String)
    (dlOk : String → Bool) :
    recOk (spider tree tarDir prevCwd dl0 ex0 dlOk).trace = true
    ∧ (∀ p d,
        lookupD (spider tree tarDir prevCwd dl0 ex0 dlOk).downloaded p
          = some d →
        lookupD dl0 p = some d
          ∨ SEv.record p d ∈ (spider tree tarDir prevCwd dl0 ex0 dlOk).trace)
    ∧ (∀ (cwd : String) (st : SpSt) (nm : String) (date : Date),
        hasArrow nm = false →
        (match lookupD st.downloaded (cwd ++ "/" ++ nm) with
          | some d0 => dateLe date d0
          | none => false) = false →
        dlOk (cwd ++ "/" ++ nm) = false →
        (procFile dlOk cwd st (nm, date)).1.downloaded = st.downloaded
          ∧ (procFile dlOk cwd st (nm, date)).2 = true) := by
  obtain ⟨h1, h2, h3⟩ := spider_inv tree tarDir prevCwd dl0 ex0 dlOk
  refine ⟨h1, h2, ?_⟩
  intro cwd st nm date ha hsk hdl
  rw [procFile]
  simp only [ha, Bool.false_eq_true, if_false, hsk, hdl]
  constructor
  · first
    | rfl
    | trivial
  · first
    | rfl
    | trivial

/-- C5: for a non-link file entry the controller skips the download
exactly when the state dictionary holds a timestamp for the
fully-qualified remote path that is at least the entry's modification
timestamp (the per-file step then returns the state unchanged with no
exception); and when the stored timestamp is older and the retrieval
succeeds, the file is re-downloaded (`retr` appears in the trace) and its
recorded timestamp is updated to the new one. -/
theorem skip_iff_current_version (dlOk : String → Bool) (cwd : String)
    (st : SpSt) (nm : String) (date : Date) (hl : hasArrow nm = false) :
    (procFile dlOk cwd st (nm, date) = (st, false)
      ↔ ∃ d0, lookupD st.downloaded (cwd ++ "/" ++ nm) = some d0
          ∧ dateLe date d0 = true)
    ∧ (∀ d0, lookupD st.downloaded (cwd ++ "/" ++ nm) = some d0 →
        dateLe date d0 = false → dlOk (cwd ++ "/" ++ nm) = true →
        lookupD (procFile dlOk cwd st (nm, date)).1.downloaded
            (cwd ++ "/" ++ nm) = some date
          ∧ SEv.retr nm (cwd ++ "/" ++ nm) true
              ∈ (procFile dlOk cwd st (nm, date)).1.trace) := by
  rw [procFile]
  simp only [hl, Bool.false_eq_true, if_false]
  rcases hlk : lookupD st.downloaded (cwd ++ "/" ++ nm) with - | d0
  · simp only [hlk, Bool.false_eq_true, if_false]
    constructor
    · constructor
      · intro heq
        exfalso
        by_cases hdl : dlOk (cwd ++ "/" ++ nm)
        · simp only [hdl, if_true] at heq
          have h1 := congrArg (fun x => x.1.trace.length) heq
          simp only [List.length_append] at h1
          simp at h1
        · simp only [hdl, Bool.false_eq_true, if_false] at heq
          have h2 := congrArg Prod.snd heq
          simp at h2
      · rintro ⟨d0, hd0, -⟩
        cases hd0
    · intro d0 hd0
      cases hd0
  · simp only [hlk]
    rcases Bool.eq_false_or_eq_true (dateLe date d0) with hle | hle
    · rw [if_pos hle]
      constructor
      · constructor
        · intro _
          exact ⟨d0, rfl, hle⟩
        · intro _
          rfl
      · intro d0' hd0' hle' _
        rw [Option.some.injEq] at hd0'
        subst hd0'
        rw [hle] at hle'
        cases hle'
    · rw [if_neg (by rw [hle]; simp)]
      by_cases hdl : dlOk (cwd ++ "/" ++ nm)
      · rw [if_pos hdl]
        constructor
        · constructor
          · intro heq
            exfalso
            have h1 := congrArg (fun x => x.1.trace.length) heq
            simp only [List.length_append] at h1
            simp at h1
          · rintro ⟨d0', hd0', hle'⟩
            rw [Option.some.injEq] at hd0'
            subst hd0'
            rw [hle] at hle'
            cases hle'
        · intro d0' _ _ _
          constructor
          · show lookupD (insertD st.downloaded _ date) _ = some date
            rw [lookupD_insertD, if_pos rfl]
          · simp
      · rw [if_neg hdl]
        constructor
        · constructor
          · intro heq
            have h2 := congrArg Prod.snd heq
            simp at h2
          · rintro ⟨d0', hd0', hle'⟩
            rw [Option.some.injEq] at hd0'
            subst hd0'
            rw [hle] at hle'
            cases hle'
        · intro d0' _ _ hdl2
          rw [hdl2] at hdl
          cases hdl rfl

/-- Witness for C5: an up-to-date file is skipped; an outdated one is
re-downloaded and its timestamp updated. -/
theorem skip_iff_current_version_witness :
    (procFile (fun _ => true) "/pub"
        ⟨[("/pub/f.txt", ⟨2011, 1, 1, 0, 0, 0⟩)], [], []⟩
        ("f.txt", ⟨2010, 6, 9, 0, 0, 0⟩)
      = (⟨[("/pub/f.txt", ⟨2011, 1, 1, 0, 0, 0⟩)], [], []⟩, false)
      ↔ ∃ d0, lookupD [("/pub/f.txt", ⟨2011, 1, 1, 0, 0, 0⟩)]
            ("/pub" ++ "/" ++ "f.txt") = some d0
          ∧ dateLe ⟨2010, 6, 9, 0, 0, 0⟩ d0 = true)
    ∧ (∀ d0, lookupD [("/pub/f.txt", ⟨2011, 1, 1, 0, 0, 0⟩)]
          ("/pub" ++ "/" ++ "f.txt") = some d0 →
        dateLe ⟨2010, 6, 9, 0, 0, 0⟩ d0 = false →
        (fun (_ : String) => true) ("/pub" ++ "/" ++ "f.txt") = true →
        lookupD (procFile (fun _ => true) "/pub"
            ⟨[("/pub/f.txt", ⟨2011, 1, 1, 0, 0, 0⟩)], [], []⟩
            ("f.txt", ⟨2010, 6, 9, 0, 0, 0⟩)).1.downloaded
            ("/pub" ++ "/" ++ "f.txt") = some ⟨2010, 6, 9, 0, 0, 0⟩
          ∧ SEv.retr "f.txt" ("/pub" ++ "/" ++ "f.txt") true
              ∈ (procFile (fun _ => true) "/pub"
                  ⟨[("/pub/f.txt", ⟨2011, 1, 1, 0, 0, 0⟩)], [], []⟩
                  ("f.txt", ⟨2010, 6, 9, 0, 0, 0⟩)).1.trace) :=
  skip_iff_current_version (fun _ => true) "/pub"
    ⟨[("/pub/f.txt", ⟨2011, 1, 1, 0, 0, 0⟩)], [], []⟩
    "f.txt" ⟨2010, 6, 9, 0, 0, 0⟩ (by decide)

/-- C6 counterexample: the claim says the listing parser excludes
symbolic-link entries before they reach the controller; in fact the parser
surfaces the link entry (name containing `->`) in its file-entry output. -/
theorem parse_surfaces_link_entries :
    parseDir 2012 ["lrwxrwxrwx 1 ftp ftp 11 Jun 9 2010 foo -> bar"]
      = .ok ([], [("foo -> bar", ⟨2010, 6, 9, 0, 0, 0⟩)])
    ∧ hasArrow "foo -> bar" = true :=
  ⟨rfl, rfl⟩

/-- C6 (amended): symbolic-link entries are not excluded by the listing
parser; they appear among its file entries, and it is the controller that
skips them: the per-file step does nothing for a link-named entry (state
unchanged, no exception), and no spidering run ever hands a link-named
file to `retrbinary`. -/
theorem links_skipped_by_controller (dlOk : String → Bool) (cwd : String)
    (st : SpSt) (nm : String) (date : Date) (h : hasArrow nm = true) :
    procFile dlOk cwd st (nm, date) = (st, false)
    ∧ (∀ (tree : FTree) (tarDir prevCwd : String)
        (dl0 : List (String × Date)) (ex0 : List String)
        (dlOk2 : String → Bool) (nm2 p : String) (ok : Bool),
        SEv.retr nm2 p ok
            ∈ (spider tree tarDir prevCwd dl0 ex0 dlOk2).trace →
        hasArrow nm2 = false) := by
  constructor
  · rw [procFile]
    simp [h]
  · intro tree tarDir prevCwd dl0 ex0 dlOk2 nm2 p ok hmem
    exact (spider_inv tree tarDir prevCwd dl0 ex0 dlOk2).2.2 nm2 p ok hmem

/-- Witness for C6 (amended) at a concrete link entry. -/
theorem links_skipped_by_controller_witness :
    procFile (fun _ => true) "/pub" ⟨[], [], []⟩
        ("a -> b", ⟨2010, 1, 1, 0, 0, 0⟩)
      = (⟨[], [], []⟩, false)
    ∧ (∀ (tree : FTree) (tarDir prevCwd : String)
        (dl0 : List (String × Date)) (ex0 : List String)
        (dlOk2 : String → Bool) (nm2 p : String) (ok : Bool),
        SEv.retr nm2 p ok
            ∈ (spider tree tarDir prevCwd dl0 ex0 dlOk2).trace →
        hasArrow nm2 = false) :=
  links_skipped_by_controller (fun _ => true) "/pub" ⟨[], [], []⟩
    "a -> b" ⟨2010, 1, 1, 0, 0, 0⟩ (by decide)

/-- C7 counterexample: the claim says every non-blank line with fewer than
9 whitespace-delimited tokens raises; an 8-token line (name missing) is
parsed without error into an entry with an empty name, because the name is
the slice `split_line[8:]`, which never raises. -/
theorem eight_token_line_parses :
    parseDir 2012 ["drwxr-xr-x 9 ftp ftp 368 Jun 9 2010"]
      = .ok ([("", ⟨2010, 6, 9, 0, 0, 0⟩)], [])
    ∧ (pySplit (pyStrip "drwxr-xr-x 9 ftp ftp 368 Jun 9 2010")).length = 8 :=
  ⟨rfl, rfl⟩

/-- C7 (amended): a non-blank listing line with fewer than 8 tokens, or
with 8 or more tokens whose (colon-fixed) date tokens `strptime` cannot
parse, makes the line parser raise (`IndexError` resp. `ValueError` — the
condition the specification names `MalformedListingEntry`), and one such
line among the input makes the whole `parse_dir` fail with no partial
recovery (no entry is produced at all); a line with exactly 8 tokens and a
parseable date, however, silently yields an entry with an empty name. -/
theorem malformed_line_errors :
    (∀ (cy : Nat) (lines : List String) (l : String) (e : MLE),
        l ∈ lines → parseLine cy l = .error e →
        ∃ e2, parseDir cy lines = .error e2)
    ∧ (∀ (cy : Nat) (l : String), (pyStrip l).data.isEmpty = false →
        (pySplit (pyStrip l)).length < 8 →
        parseLine cy l = .error .indexError)
    ∧ (∀ (cy : Nat) (l : String), (pyStrip l).data.isEmpty = false →
        8 ≤ (pySplit (pyStrip l)).length →
        strptimeBDY (dateTokens cy (pySplit (pyStrip l)))
          = .error .valueError →
        parseLine cy l = .error .valueError) := by
  refine ⟨?_, ?_, ?_⟩
  · intro cy lines
    induction lines with
    | nil =>
      intro l e hmem
      cases hmem
    | cons l2 rest ih =>
      intro l e hmem herr
      rw [List.mem_cons] at hmem
      rw [parseDir]
      rcases hmem with hmem | hmem
      · subst hmem
        rw [herr]
        exact ⟨e, rfl⟩
      · rcases hpl : parseLine cy l2 with e2 | oe
        · exact ⟨e2, rfl⟩
        · obtain ⟨e2, hrest⟩ := ih l e hmem herr
          rw [hrest]
          rcases oe with - | le
          · exact ⟨e2, rfl⟩
          · rcases le with e3 | e3
            · exact ⟨e2, rfl⟩
            · exact ⟨e2, rfl⟩
  · intro cy l hne hlen
    rw [parseLine]
    simp only [hne, Bool.false_eq_true, if_false]
    rw [if_pos hlen]
  · intro cy l hne hlen hstr
    rw [parseLine]
    simp only [hne, Bool.false_eq_true, if_false]
    rw [if_neg (by omega), hstr]

/-- Witness for C7 (amended) on concrete malformed lines. -/
theorem malformed_line_errors_witness :
    (∃ e2, parseDir 2012 ["foo bar"] = .error e2)
    ∧ parseLine 2012 ["foo bar"].head! = .error .indexError
    ∧ parseLine 2012 "-rw-r--r-- 1 ftp ftp 100 Xyz 9 2010 f.txt"
        = .error .valueError :=
  ⟨malformed_line_errors.1 2012 ["foo bar"] "foo bar" .indexError
      (List.mem_singleton.mpr rfl)
      (malformed_line_errors.2.1 2012 "foo bar" (by decide) (by decide)),
   malformed_line_errors.2.1 2012 "foo bar" (by decide) (by decide),
   malformed_line_errors.2.2 2012 "-rw-r--r-- 1 ftp ftp 100 Xyz 9 2010 f.txt"
      (by decide) (by decide) rfl⟩

theorem mkEntry_date (perms name : String) (dt : Date) :
    (mkEntry perms name dt).date = dt := by
  rw [mkEntry]
  split
  · rfl
  · rfl

/-- C8: when the third date-related token contains a colon, the parser
substitutes the current calendar year (its decimal rendering) as the year
component before parsing the three tokens as month/day/year; in both date
formats the resulting timestamp is truncated to day granularity (all
time-of-day fields zero); and the listing line
`drwxr-xr-x 9 ftp ftp 368 Jun 9 2010 pub` parses — for any current year —
to a directory entry named `pub` dated June 9, 2010 (a colon-format line
correspondingly takes the current year and drops the `HH:MM`). -/
theorem date_fix_day_granularity :
    (∀ (cy : Nat) (l : String), (pyStrip l).data.isEmpty = false →
        8 ≤ (pySplit (pyStrip l)).length →
        hasColon ((pySplit (pyStrip l)).getD 7 "") = true →
        parseLine cy l
          = match strptimeBDY (joinSpace
                [(pySplit (pyStrip l)).getD 5 "",
                 (pySplit (pyStrip l)).getD 6 "", Nat.repr cy]) with
            | .error e => .error e
            | .ok dt => .ok (some (mkEntry ((pySplit (pyStrip l)).getD 0 "")
                (joinSpace ((pySplit (pyStrip l)).drop 8)) dt)))
    ∧ (∀ (cy : Nat) (l : String) (e : LEntry),
        parseLine cy l = .ok (some e) →
        e.date.hour = 0 ∧ e.date.minute = 0 ∧ e.date.second = 0)
    ∧ (∀ cy : Nat, parseDir cy ["drwxr-xr-x 9 ftp ftp 368 Jun 9 2010 pub"]
        = .ok ([("pub", ⟨2010, 6, 9, 0, 0, 0⟩)], []))
    ∧ parseDir 2012 ["-rw-r--r-- 1 ftp ftp 100 Jun 9 10:30 recent.txt"]
        = .ok ([], [("recent.txt", ⟨2012, 6, 9, 0, 0, 0⟩)]) := by
  refine ⟨?_, ?_, ?_, ?_⟩
  · intro cy l hne hlen hcol
    have hdt : dateTokens cy (pySplit (pyStrip l))
        = joinSpace [(pySplit (pyStrip l)).getD 5 "",
            (pySplit (pyStrip l)).getD 6 "", Nat.repr cy] := by
      simp only [dateTokens]
      rw [if_pos hcol]
    rw [parseLine]
    simp only [hne, Bool.false_eq_true, if_false]
    rw [if_neg (by omega), hdt]
  · intro cy l e h
    rw [parseLine] at h
    split at h
    · simp at h
    · dsimp only at h
      split at h
      · simp at h
      · split at h
        · simp at h
        · rename_i dt hdt
          rw [Except.ok.injEq, Option.some.injEq] at h
          subst h
          rw [mkEntry_date]
          exact strptimeBDY_time_zero _ dt hdt
  · intro cy
    rfl
  · rfl

theorem parseDir_ok_filterMap (cy : Nat) :
    ∀ (lines : List String) (ds fs : List Entry),
      parseDir cy lines = .ok (ds, fs) →
      ds = lines.filterMap (fun l =>
          match parseLine cy l with
          | .ok (some (.dirE e)) => some e
          | _ => none)
        ∧ fs = lines.filterMap (fun l =>
            match parseLine cy l with
            | .ok (some (.fileE e)) => some e
            | _ => none) := by
  intro lines
  induction lines with
  | nil =>
    intro ds fs h
    rw [parseDir, Except.ok.injEq, Prod.mk.injEq] at h
    obtain ⟨h1, h2⟩ := h
    subst h1 h2
    exact ⟨rfl, rfl⟩
  | cons l rest ih =>
    intro ds fs h
    rw [parseDir] at h
    rcases hpl : parseLine cy l with e | oe <;> rw [hpl] at h
    · simp at h
    · rcases oe with - | le
      · obtain ⟨h1, h2⟩ := ih ds fs h
        simp only [List.filterMap_cons, hpl]
        exact ⟨h1, h2⟩
      · rcases le with e | e
        · rcases hpd : parseDir cy rest with e2 | p <;> rw [hpd] at h
          · simp at h
          · obtain ⟨ds2, fs2⟩ := p
            rw [Except.ok.injEq, Prod.mk.injEq] at h
            obtain ⟨h1, h2⟩ := h
            subst h1 h2
            obtain ⟨h1, h2⟩ := ih ds2 fs2 hpd
            simp only [List.filterMap_cons, hpl]
            exact ⟨by rw [h1], h2⟩
        · rcases hpd : parseDir cy rest with e2 | p <;> rw [hpd] at h
          · simp at h
          · obtain ⟨ds2, fs2⟩ := p
            rw [Except.ok.injEq, Prod.mk.injEq] at h
            obtain ⟨h1, h2⟩ := h
            subst h1 h2
            obtain ⟨h1, h2⟩ := ih ds2 fs2 hpd
            simp only [List.filterMap_cons, hpl]
            exact ⟨h1, by rw [h2]⟩

/-- C9: when a listing parses successfully, the directory output is
exactly the sequence of entries of the non-blank lines whose permission
string starts with `d`, in listing order, and the file output exactly the
entries of all other non-blank lines, in listing order; blank lines
(after stripping) are ignored; and a parsed line lands in the directory
list precisely when its first token starts with `d`. -/
theorem parse_classifies_in_order (cy : Nat) (lines : List String)
    (ds fs : List Entry) (h : parseDir cy lines = .ok (ds, fs)) :
    ds = lines.filterMap (fun l =>
        match parseLine cy l with
        | .ok (some (.dirE e)) => some e
        | _ => none)
    ∧ fs = lines.filterMap (fun l =>
        match parseLine cy l with
        | .ok (some (.fileE e)) => some e
        | _ => none)
    ∧ (∀ (l : String) (rest : List String),
        (pyStrip l).data.isEmpty = true →
        parseDir cy (l :: rest) = parseDir cy rest)
    ∧ (∀ (l : String) (e : LEntry), parseLine cy l = .ok (some e) →
        ((∃ en, e = .dirE en)
          ↔ permsStartsD ((pySplit (pyStrip l)).getD 0 "") = true)) := by
  obtain ⟨h1, h2⟩ := parseDir_ok_filterMap cy lines ds fs h
  refine ⟨h1, h2, ?_, ?_⟩
  · intro l rest hb
    have hpl : parseLine cy l = .ok none := by
      rw [parseLine]
      rw [if_pos hb]
    rw [parseDir, hpl]
  · intro l e hpl
    rw [parseLine] at hpl
    split at hpl
    · simp at hpl
    · dsimp only at hpl
      split at hpl
      · simp at hpl
      · split at hpl
        · simp at hpl
        · rename_i dt hdt
          rw [Except.ok.injEq, Option.some.injEq] at hpl
          subst hpl
          rw [mkEntry]
          by_cases hperm :
              permsStartsD ((pySplit (pyStrip l)).getD 0 "") = true
          · rw [if_pos hperm]
            exact ⟨fun _ => hperm, fun _ => ⟨_, rfl⟩⟩
          · rw [if_neg hperm]
            constructor
            · rintro ⟨en, hen⟩
              cases hen
            · intro hp
              exact absurd hp hperm

/-- Witness for C9 on a concrete listing with a directory line, a file
line and a blank line. -/
theorem parse_classifies_in_order_witness :
    [("pub", (⟨2010, 6, 9, 0, 0, 0⟩ : Date))]
      = ["drwxr-xr-x 9 ftp ftp 368 Jun 9 2010 pub", "  ",
         "-rw-r--r-- 1 ftp ftp 1599 Apr 3 2002 author.msg"].filterMap
          (fun l =>
            match parseLine 2012 l with
            | .ok (some (.dirE e)) => some e
            | _ => none)
    ∧ [("author.msg", (⟨2002, 4, 3, 0, 0, 0⟩ : Date))]
      = ["drwxr-xr-x 9 ftp ftp 368 Jun 9 2010 pub", "  ",
         "-rw-r--r-- 1 ftp ftp 1599 Apr 3 2002 author.msg"].filterMap
          (fun l =>
            match parseLine 2012 l with
            | .ok (some (.fileE e)) => some e
            | _ => none)
    ∧ (∀ (l : String) (rest : List String),
        (pyStrip l).data.isEmpty = true →
        parseDir 2012 (l :: rest) = parseDir 2012 rest)
    ∧ (∀ (l : String) (e : LEntry), parseLine 2012 l = .ok (some e) →
        ((∃ en, e = .dirE en)
          ↔ permsStartsD ((pySplit (pyStrip l)).getD 0 "") = true)) :=
  parse_classifies_in_order 2012
    ["drwxr-xr-x 9 ftp ftp 368 Jun 9 2010 pub", "  ",
     "-rw-r--r-- 1 ftp ftp 1599 Apr 3 2002 author.msg"]
    [("pub", ⟨2010, 6, 9, 0, 0, 0⟩)]
    [("author.msg", ⟨2002, 4, 3, 0, 0, 0⟩)] rfl

/-- C10: the spider invokes the walker without a starting-path argument,
so the walker's default `'/'` is used: the directories the spider
iterates over are exactly those of `walk` from `'/'`, the first one is the
server root `'/'`, and they cover the whole server tree (one per
directory); `spiderDirs` takes no starting-path parameter — the
controller's interface exposes none. -/
theorem spider_walks_entire_tree_from_root (tree : FTree) :
    spiderDirs tree = ((walk tree "/").1).map Prod.fst
    ∧ (spiderDirs tree).head? = some "/"
    ∧ (spiderDirs tree).length = countNodes tree := by
  refine ⟨rfl, ?_, ?_⟩
  · rw [spiderDirs, walk_eq, visitTree]
    rfl
  · rw [spiderDirs]
    simp only [List.length_map]
    exact walk_yields_length tree "/"

end FtpSpider
